import Mathlib

/-
Verification of the generic client-side record store of the asgard
repository (src/lib/db.ts, its snippet instantiation, the hand-written
variant src/lib/idb.ts, and the settings-page import handler).

Modelling conventions:
  - JS strings are modelled as `List Char`; lowercasing is ASCII
    (`Char.toLower`), matching `String.prototype.toLowerCase` on the
    ASCII inputs the repository deals in.
  - JS numbers are modelled as `Int` (the records in this repository
    store epoch-millisecond integers); string-to-number coercion is
    modelled for integer literals.
  - Record field values follow the source type
    `Primitive | Primitive[]` with `Primitive = string | number |
    boolean | null | undefined`.
  - The IndexedDB engine (the external `idb` dependency wrapping the
    browser database) is modelled as a list of records with
    insert-or-replace keyed by the configured key field, per the
    engine contract stated in the spec (one record per key, getAll in
    store order, transactions all-or-nothing).
  - JS evaluation steps that can throw are modelled with `Option`
    (`none` = a thrown exception).
-/

namespace Asgard

/-- One JS character-list helper: ASCII lowercasing, modelling
`String.prototype.toLowerCase`. -/
def chLower (s : List Char) : List Char := s.map Char.toLower

/-- Models `String.prototype.trim`: drop whitespace from both ends. -/
def chTrim (s : List Char) : List Char :=
  ((s.dropWhile Char.isWhitespace).reverse.dropWhile Char.isWhitespace).reverse

/-- Boolean prefix test on character lists. -/
def isPrefixCh : List Char → List Char → Bool
  | [], _ => true
  | _ :: _, [] => false
  | a :: as, b :: bs => a == b && isPrefixCh as bs

/-- Models `String.prototype.includes`: substring containment. -/
def includesCh (hay sub : List Char) : Bool :=
  match hay with
  | [] => sub.isEmpty
  | _ :: t => isPrefixCh sub hay || includesCh t sub

/-- Lexicographic strict comparison of character lists, modelling the JS
`<` operator on two strings (code-unit order). -/
def chLtB : List Char → List Char → Bool
  | [], [] => false
  | [], _ :: _ => true
  | _ :: _, [] => false
  | a :: as, b :: bs => if a < b then true else if b < a then false else chLtB as bs

/-- Digit accumulator for string-to-number coercion. -/
def digitsToNatAux : Nat → List Char → Option Nat
  | acc, [] => some acc
  | acc, c :: cs =>
    if c.isDigit then digitsToNatAux (acc * 10 + (c.toNat - 48)) cs else none

/-- Parse a nonempty run of decimal digits. -/
def digitsToNat : List Char → Option Nat
  | [] => none
  | cs => digitsToNatAux 0 cs

/-- Models JS `ToNumber` on strings for the integer fragment: blank
strings coerce to 0, optionally signed decimal integer literals parse,
anything else is NaN (`none`). -/
def chToInt (s : List Char) : Option Int :=
  match chTrim s with
  | [] => some 0
  | '-' :: ds => (digitsToNat ds).map (fun n => -(n : Int))
  | '+' :: ds => (digitsToNat ds).map (fun n => (n : Int))
  | ds => (digitsToNat ds).map (fun n => (n : Int))

/-- Digits of a natural number, for JS `String(n)`. -/
def jsStrOfNat (n : Nat) : List Char := Nat.toDigits 10 n

/-- JS `String()` on an integer. -/
def jsStrOfInt : Int → List Char
  | .ofNat n => jsStrOfNat n
  | .negSucc n => '-' :: jsStrOfNat (n + 1)

/-- A JS primitive value, after the source type
`Primitive = string | number | boolean | null | undefined`. -/
inductive Prim where
  | str : List Char → Prim
  | num : Int → Prim
  | bool : Bool → Prim
  | null : Prim
  | undefined : Prim
deriving DecidableEq

/-- A record field value, after the source type
`Primitive | Primitive[]`. -/
inductive Value where
  | prim : Prim → Value
  | arr : List Prim → Value
deriving DecidableEq

/-- A record: a JS object, modelled as an association list from field
names to values. -/
abbrev Rec := List (String × Value)

/-- The contents of one object store of the engine. -/
abbrev DB := List Rec

/-- JS property read `r[f]`: the first binding of the field, or
`undefined` when the field is absent. -/
def getField (r : Rec) (f : String) : Value :=
  match r.find? (fun p => decide (p.1 = f)) with
  | some p => p.2
  | none => .prim .undefined

/-- JS `String()` on a primitive. -/
def jsStringOfPrim : Prim → List Char
  | .str s => s
  | .num n => jsStrOfInt n
  | .bool true => "true".data
  | .bool false => "false".data
  | .null => "null".data
  | .undefined => "undefined".data

/-- The nullish coalescing `v ?? ""` applied before string coercion in
the source helper `toLower`. -/
def nullishEmpty : Prim → Prim
  | .null => .str []
  | .undefined => .str []
  | p => p

/-- Source db.ts line 88:
`toLower = (v) => typeof v === "string" ? v.toLowerCase() : String(v ?? "").toLowerCase()`. -/
def toLower (v : Prim) : List Char :=
  match v with
  | .str s => chLower s
  | v => chLower (jsStringOfPrim (nullishEmpty v))

/-- JS `ToPrimitive`: primitives stay; an array converts to its joined
string (`Array.prototype.toString`), with null/undefined elements
rendered empty. -/
def jsElemStr : Prim → List Char
  | .null => []
  | .undefined => []
  | p => jsStringOfPrim p

/-- Comma-join of array elements, modelling `Array.prototype.join`. -/
def jsJoin : List Prim → List Char
  | [] => []
  | [p] => jsElemStr p
  | p :: rest => jsElemStr p ++ ',' :: jsJoin rest

/-- JS `ToPrimitive` on a field value. -/
def jsToPrimitive : Value → Prim
  | .prim p => p
  | .arr xs => .str (jsJoin xs)

/-- JS `ToNumber` on a primitive (`none` models NaN). -/
def primToNumber : Prim → Option Int
  | .str s => chToInt s
  | .num n => some n
  | .bool b => some (if b then 1 else 0)
  | .null => some 0
  | .undefined => none

/-- JS `ToNumber` on a field value. -/
def valueToNumber (v : Value) : Option Int := primToNumber (jsToPrimitive v)

/-- The JS `<` operator on two field values: string comparison when both
coerce to strings, numeric comparison otherwise, false when NaN is
involved. -/
def jsLt (a b : Value) : Bool :=
  match jsToPrimitive a, jsToPrimitive b with
  | .str x, .str y => chLtB x y
  | pa, pb =>
    match primToNumber pa, primToNumber pb with
    | some x, some y => decide (x < y)
    | _, _ => false

/-- Source db.ts line 86: `cmp = (a, b) => (a < b ? -1 : a > b ? 1 : 0)`. -/
def cmp (a b : Value) : Int :=
  if jsLt a b then -1 else if jsLt b a then 1 else 0

/-- A secondary index description, after `IndexDef` in db.ts. -/
structure IndexDef where
  name : String
  keyPath : List String
  unique : Bool
  multiEntry : Bool
deriving DecidableEq

/-- A collection configuration, after `StoreConfig` in db.ts. -/
structure StoreConfig where
  dbName : List Char
  version : Int
  storeName : List Char
  keyField : String
  indexes : List IndexDef
  textSearchFields : List String
deriving DecidableEq

/-- The key of a record: the value of the configured key field. -/
def keyOf (cfg : StoreConfig) (r : Rec) : Value := getField r cfg.keyField

/-- Models the engine write `db.put(storeName, row)` on an object store
with `keyPath = cfg.keyField`: replace the record holding the same key
when one exists, append the record otherwise (the external IndexedDB
engine; spec section 3: one record per key, put is insert-or-replace). -/
def enginePut (cfg : StoreConfig) (s : DB) (r : Rec) : DB :=
  if s.any (fun t => decide (keyOf cfg t = keyOf cfg r))
  then s.map (fun t => if keyOf cfg t = keyOf cfg r then r else t)
  else s ++ [r]

/-- Models the engine read `db.get(storeName, id)`: the record whose key
equals the requested key, if any. -/
def engineGet (cfg : StoreConfig) (s : DB) (k : Value) : Option Rec :=
  s.find? (fun t => decide (keyOf cfg t = k))

/-- The engine invariant: all records in the store have distinct keys. -/
def uniqueKeysB (cfg : StoreConfig) : DB → Bool
  | [] => true
  | r :: rs =>
    rs.all (fun t => decide (keyOf cfg t ≠ keyOf cfg r)) && uniqueKeysB cfg rs

/-- IndexedDB keys admit strings and numbers; a record is valid for a
store when its key field holds one. -/
def isKeyValue : Value → Bool
  | .prim (.str _) => true
  | .prim (.num _) => true
  | _ => false

/-- Sort direction, after `OrderDir` in db.ts (`desc` is the default of
`listAll`). -/
inductive OrderDir where
  | asc
  | desc
deriving DecidableEq

/-- Stable insertion of one element, the building block of the model of
`Array.prototype.sort`. -/
def jsInsert (le : α → α → Bool) (x : α) : List α → List α
  | [] => [x]
  | y :: ys => if le x y then x :: y :: ys else y :: jsInsert le x ys

/-- Models `Array.prototype.sort` with a consistent comparator: the
stable sort placing `a` before `b` when the comparator is nonpositive. -/
def jsSort (le : α → α → Bool) : List α → List α
  | [] => []
  | x :: xs => jsInsert le x (jsSort le xs)

/-- The ordering used by `listAll`: comparator `cmp` on the named field,
swapped for descending order (db.ts lines 103-107). -/
def sortLe (f : String) (dir : OrderDir) (a b : Rec) : Bool :=
  match dir with
  | .asc => decide (cmp (getField a f) (getField b f) ≤ 0)
  | .desc => decide (cmp (getField b f) (getField a f) ≤ 0)

/-- Source db.ts lines 99-109: `listAll(orderBy?, dir = "desc")` returns
`getAll` output, client-side sorted by the named field when an order
field is given. -/
def listAll (cfg : StoreConfig) (s : DB) (orderBy : Option String)
    (dir : OrderDir) : List Rec :=
  match orderBy with
  | none => s
  | some f => jsSort (sortLe f dir) s

/-- The outcome of a store operation: the new store contents and how
many change-notification broadcasts were emitted. -/
structure OpResult where
  state : DB
  pings : Nat
deriving DecidableEq

/-- Source db.ts lines 130-134: `put` writes one record and pings once. -/
def put (cfg : StoreConfig) (s : DB) (r : Rec) : OpResult :=
  ⟨enginePut cfg s r, 1⟩

/-- Source db.ts lines 125-128: `get` reads one record by key. -/
def get (cfg : StoreConfig) (s : DB) (k : Value) : Option Rec :=
  engineGet cfg s k

/-- Source db.ts lines 136-140: `delete` removes the record with the
given key and pings once. -/
def del (cfg : StoreConfig) (s : DB) (k : Value) : OpResult :=
  ⟨s.filter (fun t => decide (keyOf cfg t ≠ k)), 1⟩

/-- Models running the `readwrite` transaction of `upsertMany` (db.ts
lines 117-123): the loop issues one engine put per record into the
transaction, then awaits `tx.done`. The engine applies the buffered
writes atomically; `failAt = some i` makes the engine fail at the i-th
suspension point (a put, or `tx.done` when `i` is past the puts), which
aborts the transaction and discards every buffered write. -/
def txRun (cfg : StoreConfig) : DB → List Rec → Option Nat → Option DB
  | buf, [], none => some buf
  | _, [], some _ => none
  | _, _ :: _, some 0 => none
  | buf, r :: rs, some (i + 1) => txRun cfg (enginePut cfg buf r) rs (some i)
  | buf, r :: rs, none => txRun cfg (enginePut cfg buf r) rs none

/-- Source db.ts lines 117-123: `upsertMany` runs all writes in one
transaction and pings once after `tx.done` resolves; a rejected
`tx.done` propagates before `ping()` is reached, so an aborted batch
leaves the store unchanged and emits no broadcast. -/
def upsertMany (cfg : StoreConfig) (s : DB) (rows : List Rec)
    (failAt : Option Nat) : OpResult :=
  match txRun cfg s rows failAt with
  | none => ⟨s, 0⟩
  | some s2 => ⟨s2, 1⟩

/-- Applying the same records through repeated single `put` calls, for
contrast with the batched `upsertMany` (each put pings once). -/
def putEach (cfg : StoreConfig) (s : DB) (rows : List Rec) : OpResult :=
  rows.foldl (fun acc r => ⟨enginePut cfg acc.state r, acc.pings + 1⟩) ⟨s, 0⟩

/-- The per-field test of `search` (db.ts lines 162-166): an array field
matches when some element contains the lowered query, any other field
matches when its `toLower` image contains it. -/
def fieldMatch (v : Value) (lower : List Char) : Bool :=
  match v with
  | .arr xs => xs.any (fun x => includesCh (toLower x) lower)
  | .prim p => includesCh (toLower p) lower

/-- Source db.ts lines 154-169: `search` trims the query, returns
`listAll()` for an empty trimmed query, and otherwise filters `getAll`
output by the per-field substring test over the configured text-search
fields. -/
def search (cfg : StoreConfig) (s : DB) (q : List Char) : List Rec :=
  let query := chTrim q
  if query.isEmpty then listAll cfg s none .desc
  else
    let lower := chLower query
    s.filter (fun r =>
      cfg.textSearchFields.any (fun f => fieldMatch (getField r f) lower))

/-- Source db.ts line 68:
`makeChannelName = (dbName, storeName) => dbName + "::" + storeName + "::changes"`. -/
def makeChannelName (dbName storeName : List Char) : List Char :=
  dbName ++ "::".data ++ storeName ++ "::changes".data

/-- A parsed JSON document. The platform pair `JSON.stringify` and
`JSON.parse` used by `exportJson` and `importJson` is modelled as the
identity on this abstract syntax: the spec states that `importJson`
parses the very envelope `exportJson` serializes. -/
inductive Json where
  | null : Json
  | bool : Bool → Json
  | num : Int → Json
  | str : List Char → Json
  | arr : List Json → Json
  | obj : List (String × Json) → Json

/-- JSON image of a primitive; `JSON.stringify` renders an `undefined`
array element as `null` (the field case is dropped in `encodeValue`). -/
def jsonOfPrim : Prim → Json
  | .str s => .str s
  | .num n => .num n
  | .bool b => .bool b
  | .null => .null
  | .undefined => .null

/-- JSON image of a field value: `JSON.stringify` drops a field whose
value is `undefined` (`none` here), and keeps everything else. -/
def encodeValue : Value → Option Json
  | .prim .undefined => none
  | .prim p => some (jsonOfPrim p)
  | .arr xs => some (.arr (xs.map jsonOfPrim))

/-- JSON image of a record under `JSON.stringify`. -/
def encodeRec (r : Rec) : Json :=
  .obj (r.filterMap (fun fv => (encodeValue fv.2).map (fun j => (fv.1, j))))

/-- Parsed JSON back to a primitive. Nested arrays and objects fall
outside the record model (the source record type only admits
`Primitive | Primitive[]` fields) and are mapped to `undefined`. -/
def decodePrimJ : Json → Prim
  | .null => .null
  | .bool b => .bool b
  | .num n => .num n
  | .str s => .str s
  | .arr _ => .undefined
  | .obj _ => .undefined

/-- Parsed JSON back to a field value. -/
def decodeValue : Json → Value
  | .arr xs => .arr (xs.map decodePrimJ)
  | j => .prim (decodePrimJ j)

/-- Parsed JSON back to a record; non-objects hold no fields. -/
def decodeRec : Json → Rec
  | .obj fs => fs.map (fun fj => (fj.1, decodeValue fj.2))
  | _ => []

/-- JS property read on a parsed JSON value: `undefined` (`none`) on
everything that is not an object carrying the field — in particular a
bare array has no `items` property. -/
def jsonGet : Json → String → Option Json
  | .obj fs, f => (fs.find? (fun p => decide (p.1 = f))).map (fun p => p.2)
  | _, _ => none

/-- Source db.ts lines 142-146: `exportJson` serializes the envelope
`{v: 1, exportedAt: Date.now(), items: listAll()}`. -/
def exportJson (cfg : StoreConfig) (s : DB) (now : Int) : Json :=
  .obj [("v", .num 1), ("exportedAt", .num now),
        ("items", .arr ((listAll cfg s none .desc).map encodeRec))]

/-- The outcome of `importJson`: the store contents, the broadcasts
emitted, and the error carried by the rejected promise, if any. -/
structure ImportResult where
  state : DB
  pings : Nat
  error : Option (List Char)
deriving DecidableEq

/-- Source db.ts lines 148-152: `importJson` reads `parsed.items`,
throws `Invalid import payload` before touching the engine unless it is
an array, and otherwise hands all items to `upsertMany`. -/
def importJson (cfg : StoreConfig) (s : DB) (j : Json) : ImportResult :=
  match jsonGet j "items" with
  | some (.arr items) =>
    let r := upsertMany cfg s (items.map decodeRec) none
    ⟨r.state, r.pings, none⟩
  | _ => ⟨s, 0, some "Invalid import payload".data⟩

/-- Source db.ts line 73: the broadcast payload is the constant object
`{t: "changed"}`. -/
def pingMessage : Json := .obj [("t", .str "changed".data)]

/-- The `onChange` message handler predicate (db.ts lines 76-79): react
exactly to object payloads whose `t` property is `"changed"`. -/
def handlerFires (m : Json) : Bool :=
  match jsonGet m "t" with
  | some (.str s) => decide (s = "changed".data)
  | _ => false

/-- Two channels deliver to each other exactly when their names are
equal (the `BroadcastChannel` same-name contract of the platform). -/
def signals (cfg1 cfg2 : StoreConfig) : Prop :=
  makeChannelName cfg1.dbName cfg1.storeName
    = makeChannelName cfg2.dbName cfg2.storeName

/-- The snippet collection configuration that instantiates the generic
builder (the `createStore` call of the snippets module). -/
def snippetConfig : StoreConfig :=
  ⟨"snippets-db".data, 1, "snippets".data, "id",
   [⟨"by_title", ["title"], false, false⟩,
    ⟨"by_updatedAt", ["updatedAt"], false, false⟩,
    ⟨"by_tags", ["tags"], false, true⟩],
   ["title", "tags", "code"]⟩

/-- IndexedDB key order on the key types the snippet store uses:
numbers sort below strings, numbers by value, strings by code units. -/
def idbKeyLt : Value → Value → Bool
  | .prim (.num x), .prim (.num y) => decide (x < y)
  | .prim (.num _), .prim (.str _) => true
  | .prim (.str _), .prim (.num _) => false
  | .prim (.str x), .prim (.str y) => chLtB x y
  | _, _ => false

/-- Enumeration order of the `by_updatedAt` index: ascending index key,
ties in ascending primary key (the external engine contract behind
`getAllFromIndex`). -/
def idxLe (a b : Rec) : Bool :=
  if idbKeyLt (getField a "updatedAt") (getField b "updatedAt") then true
  else if idbKeyLt (getField b "updatedAt") (getField a "updatedAt") then false
  else !idbKeyLt (getField b "id") (getField a "id")

/-- Source idb.ts lines 47-51: the hand-written `Snippets.listAll` reads
the `by_updatedAt` index in ascending order and reverses it. -/
def snipListAll (s : DB) : List Rec :=
  (jsSort idxLe s).reverse

/-- JS evaluation of `x?.toLowerCase()` on a primitive: `some none` when
the chain short-circuits to `undefined`, `some (some s)` on a string,
`none` (TypeError) when `toLowerCase` does not exist on the value. -/
def tryLowerPrim : Prim → Option (Option (List Char))
  | .null => some none
  | .undefined => some none
  | .str s => some (some (chLower s))
  | _ => none

/-- JS evaluation of `x?.toLowerCase()` on a field value: arrays carry
no `toLowerCase`, so a non-nullish non-string throws. -/
def tryLowerValue : Value → Option (Option (List Char))
  | .prim p => tryLowerPrim p
  | .arr _ => none

/-- JS truthiness of `x?.toLowerCase().includes(lower)`: `undefined` is
falsy, otherwise the substring test runs. -/
def tryFieldTest (v : Value) (lower : List Char) : Option Bool :=
  match tryLowerValue v with
  | none => none
  | some none => some false
  | some (some s) => some (includesCh s lower)

/-- JS evaluation of `tags.some((t) => t?.toLowerCase().includes(lower))`
with its short-circuit on the first match. -/
def trySomeTags (lower : List Char) : List Prim → Option Bool
  | [] => some false
  | p :: ps =>
    match tryLowerPrim p with
    | none => none
    | some none => trySomeTags lower ps
    | some (some s) =>
      if includesCh s lower then some true else trySomeTags lower ps

/-- JS evaluation of
`Array.isArray(r.tags) && r.tags.some((t) => ...)`. -/
def tryTagsTest (v : Value) (lower : List Char) : Option Bool :=
  match v with
  | .arr xs => trySomeTags lower xs
  | _ => some false

/-- The filter body of `searchByTitle` (idb.ts lines 77-82): all three
field tests are evaluated, then disjoined; a throw anywhere rejects. -/
def snipMatch (r : Rec) (lower : List Char) : Option Bool :=
  match tryFieldTest (getField r "title") lower,
        tryTagsTest (getField r "tags") lower,
        tryFieldTest (getField r "code") lower with
  | some a, some b, some c => some (a || b || c)
  | _, _, _ => none

/-- `Array.prototype.filter` with a callback that can throw. -/
def filterOpt (p : α → Option Bool) : List α → Option (List α)
  | [] => some []
  | x :: xs =>
    match p x with
    | none => none
    | some true => (filterOpt p xs).map (fun l => x :: l)
    | some false => filterOpt p xs

/-- The comparator `(a, b) => b.updatedAt - a.updatedAt` of
`searchByTitle` as a nonpositivity test; a NaN comparator result is
treated as 0 by the sort. -/
def byUpdatedDescLe (a b : Rec) : Bool :=
  match valueToNumber (getField b "updatedAt"),
        valueToNumber (getField a "updatedAt") with
  | some yb, some ya => decide (yb - ya ≤ 0)
  | _, _ => true

/-- Source idb.ts lines 70-84: the hand-written `searchByTitle` trims
the query, returns the updatedAt-descending `listAll` on an empty
trimmed query, and otherwise filters `getAll` output by the three-field
test and sorts matches by `updatedAt` descending. `none` models a
thrown TypeError. -/
def searchByTitle (s : DB) (q : List Char) : Option (List Rec) :=
  let query := chTrim q
  if query.isEmpty then some (snipListAll s)
  else
    let lower := chLower query
    match filterOpt (fun r => snipMatch r lower) s with
    | none => none
    | some matched => some (jsSort byUpdatedDescLe matched)

/-- A field value that is a JS string. -/
def isStrV : Value → Bool
  | .prim (.str _) => true
  | _ => false

/-- A field value that is an array of JS strings. -/
def isStrArrV : Value → Bool
  | .arr xs => xs.all (fun x => match x with | .str _ => true | _ => false)
  | _ => false

/-- A field value that is a JS number (forward declaration used by the
snippet shape below and by the sorting development). -/
def isNumVal : Value → Bool
  | .prim (.num _) => true
  | _ => false

/-- A well-typed snippet record, per the `Snippet` source type. -/
def isSnippet (r : Rec) : Bool :=
  isStrV (getField r "id")
  && isStrV (getField r "title")
  && isStrV (getField r "code")
  && isStrArrV (getField r "tags")
  && isNumVal (getField r "createdAt")
  && isNumVal (getField r "updatedAt")

/-- The zod snippet schema of the settings page: parse one JSON value
into a snippet record, stripping unknown keys (zod object defaults). -/
def parseSnippet (j : Json) : Option Rec :=
  match jsonGet j "id", jsonGet j "title", jsonGet j "code",
        jsonGet j "tags", jsonGet j "createdAt", jsonGet j "updatedAt",
        jsonGet j "language" with
  | some (.str i), some (.str t), some (.str c), some (.arr tg),
    some (.num ca), some (.num ua), some (.str lang) =>
    if tg.all (fun x => match x with | .str _ => true | _ => false)
        && (decide (lang = "ts".data) || decide (lang = "tsx".data)) then
      some [("id", .prim (.str i)), ("title", .prim (.str t)),
            ("code", .prim (.str c)),
            ("tags", .arr (tg.map decodePrimJ)),
            ("createdAt", .prim (.num ca)), ("updatedAt", .prim (.num ua)),
            ("language", .prim (.str lang))]
    else none
  | _, _, _, _, _, _, _ => none

/-- Parse every element of a JSON array as a snippet. -/
def parseAllSnippets : List Json → Option (List Rec)
  | [] => some []
  | j :: js =>
    match parseSnippet j, parseAllSnippets js with
    | some r, some rs => some (r :: rs)
    | _, _ => none

/-- The import schema of the settings page: a zod union of an envelope
object — optional numeric `v` plus `items`, an array of snippets — with
a bare array of snippets, followed by the selection
`Array.isArray(data) ? data : data.items`. Yields the records the
settings import handler hands to `upsertMany`, or `none` when
validation fails. -/
def settingsImportItems (j : Json) : Option (List Rec) :=
  match j with
  | .arr xs => parseAllSnippets xs
  | .obj _ =>
    (match jsonGet j "v" with
     | some (.num _) => true
     | none => true
     | _ => false)
    |> fun vOk =>
      if vOk then
        match jsonGet j "items" with
        | some (.arr xs) => parseAllSnippets xs
        | _ => none
      else none
  | _ => none

/-- The settings-page import handler (settings page, `onImportFile`):
validate through the union schema, then apply the selected items as one
`upsertMany` batch. -/
def settingsImport (s : DB) (j : Json) : Option OpResult :=
  (settingsImportItems j).map (fun rs => upsertMany snippetConfig s rs none)

theorem isPrefixCh_iff (sub : List Char) :
    ∀ hay, isPrefixCh sub hay = true ↔ ∃ post, hay = sub ++ post := by
  induction sub with
  | nil =>
    intro hay
    simp [isPrefixCh]
  | cons a as ih =>
    intro hay
    cases hay with
    | nil =>
      simp [isPrefixCh]
    | cons b bs =>
      simp only [isPrefixCh, Bool.and_eq_true, beq_iff_eq, ih bs,
        List.cons_append, List.cons.injEq]
      constructor
      · rintro ⟨rfl, post, rfl⟩
        exact ⟨post, rfl, rfl⟩
      · rintro ⟨post, rfl, rfl⟩
        exact ⟨rfl, post, rfl⟩

theorem includesCh_iff (sub : List Char) :
    ∀ hay, includesCh hay sub = true ↔ ∃ pre post, hay = pre ++ sub ++ post := by
  intro hay
  induction hay with
  | nil =>
    simp only [includesCh, List.isEmpty_iff]
    constructor
    · rintro rfl
      exact ⟨[], [], rfl⟩
    · rintro ⟨pre, post, h⟩
      rcases List.append_eq_nil.mp h.symm with ⟨h1, h2⟩
      rcases List.append_eq_nil.mp h1 with ⟨-, h3⟩
      exact h3
  | cons c t ih =>
    simp only [includesCh, Bool.or_eq_true, isPrefixCh_iff, ih]
    constructor
    · rintro (⟨post, h⟩ | ⟨pre, post, rfl⟩)
      · exact ⟨[], post, by simpa using h⟩
      · exact ⟨c :: pre, post, rfl⟩
    · rintro ⟨pre, post, h⟩
      cases pre with
      | nil =>
        exact Or.inl ⟨post, by simpa using h⟩
      | cons c2 pre2 =>
        rcases List.cons.injEq .. ▸ h with ⟨-, h2⟩
        exact Or.inr ⟨pre2, post, h2⟩

theorem chLower_nonempty {q : List Char} (h : q ≠ []) : chLower q ≠ [] := by
  cases q with
  | nil => exact absurd rfl h
  | cons a t => simp [chLower]

theorem find?_map_replace (cfg : StoreConfig) (r : Rec) :
    ∀ s : DB, s.any (fun t => decide (keyOf cfg t = keyOf cfg r)) = true →
      ((s.map (fun t => if keyOf cfg t = keyOf cfg r then r else t)).find?
        (fun t => decide (keyOf cfg t = keyOf cfg r))) = some r := by
  intro s
  induction s with
  | nil => simp
  | cons x xs ih =>
    intro hany
    by_cases hx : keyOf cfg x = keyOf cfg r
    · simp [hx, List.find?]
    · have hany2 : xs.any (fun t => decide (keyOf cfg t = keyOf cfg r)) = true := by
        simpa [List.any_cons, hx] using hany
      simpa [hx, List.find?] using ih hany2

theorem find?_append_self (cfg : StoreConfig) (r : Rec) :
    ∀ s : DB, s.any (fun t => decide (keyOf cfg t = keyOf cfg r)) = false →
      ((s ++ [r]).find? (fun t => decide (keyOf cfg t = keyOf cfg r))) = some r := by
  intro s
  induction s with
  | nil => simp [List.find?]
  | cons x xs ih =>
    intro hany
    have hx : ¬ keyOf cfg x = keyOf cfg r := by
      intro h
      simp [List.any_cons, h] at hany
    have hany2 : xs.any (fun t => decide (keyOf cfg t = keyOf cfg r)) = false := by
      simpa [List.any_cons, hx] using hany
    simpa [hx, List.find?] using ih hany2

theorem engineGet_enginePut_self (cfg : StoreConfig) (s : DB) (r : Rec) :
    engineGet cfg (enginePut cfg s r) (keyOf cfg r) = some r := by
  unfold enginePut engineGet
  by_cases h : s.any (fun t => decide (keyOf cfg t = keyOf cfg r)) = true
  · simpa [h] using find?_map_replace cfg r s h
  · have h2 := eq_false_of_ne_true h
    simpa [h2] using find?_append_self cfg r s h2

theorem any_enginePut_self (cfg : StoreConfig) (s : DB) (r : Rec) :
    (enginePut cfg s r).any (fun t => decide (keyOf cfg t = keyOf cfg r)) = true := by
  unfold enginePut
  by_cases h : s.any (fun t => decide (keyOf cfg t = keyOf cfg r)) = true
  · rcases List.any_eq_true.mp h with ⟨t, ht, hkey⟩
    simp only [h, if_true, List.any_map, List.any_eq_true]
    refine ⟨t, ht, ?_⟩
    have hk := of_decide_eq_true hkey
    simp [Function.comp, hk]
  · have h2 := eq_false_of_ne_true h
    simp [h2, List.any_append]

/-- The keys invariant as a pairwise property. -/
theorem uniqueKeysB_iff (cfg : StoreConfig) :
    ∀ s : DB, uniqueKeysB cfg s = true
      ↔ s.Pairwise (fun a b => keyOf cfg a ≠ keyOf cfg b) := by
  intro s
  induction s with
  | nil => simp [uniqueKeysB]
  | cons x xs ih =>
    simp only [uniqueKeysB, Bool.and_eq_true, List.all_eq_true, decide_eq_true_eq,
      List.pairwise_cons, ih]
    constructor
    · rintro ⟨h1, h2⟩
      exact ⟨fun b hb => (h1 b hb).symm, h2⟩
    · rintro ⟨h1, h2⟩
      exact ⟨fun b hb => (h1 b hb).symm, h2⟩

theorem pairwise_enginePut (cfg : StoreConfig) (s : DB) (r : Rec)
    (h : s.Pairwise (fun a b => keyOf cfg a ≠ keyOf cfg b)) :
    (enginePut cfg s r).Pairwise (fun a b => keyOf cfg a ≠ keyOf cfg b) := by
  unfold enginePut
  by_cases hany : s.any (fun t => decide (keyOf cfg t = keyOf cfg r)) = true
  · simp only [hany, if_true]
    rw [List.pairwise_map]
    refine h.imp ?_
    intro a b hab
    by_cases ha : keyOf cfg a = keyOf cfg r
    · by_cases hb : keyOf cfg b = keyOf cfg r
      · exact absurd (ha.trans hb.symm) hab
      · simpa [ha, hb] using ha ▸ hab
    · by_cases hb : keyOf cfg b = keyOf cfg r
      · simpa [ha, hb] using hb ▸ hab
      · simpa [ha, hb] using hab
  · have h2 := eq_false_of_ne_true hany
    simp only [h2, Bool.false_eq_true, if_false]
    rw [List.pairwise_append]
    refine ⟨h, List.pairwise_singleton _ _, ?_⟩
    intro a ha b hb
    rcases List.mem_singleton.mp hb with rfl
    intro hkey
    have hall := List.any_eq_false.mp h2 a ha
    simp only [decide_eq_true_eq] at hall
    exact hall hkey

theorem count_le_one_of_pairwise (cfg : StoreConfig) (k : Value) :
    ∀ s : DB, s.Pairwise (fun a b => keyOf cfg a ≠ keyOf cfg b) →
      (s.filter (fun t => decide (keyOf cfg t = k))).length ≤ 1 := by
  intro s
  induction s with
  | nil => simp
  | cons x xs ih =>
    intro h
    rcases List.pairwise_cons.mp h with ⟨hx, hxs⟩
    by_cases hk : keyOf cfg x = k
    · have hnil : xs.filter (fun t => decide (keyOf cfg t = k)) = [] := by
        rw [List.filter_eq_nil_iff]
        intro t ht
        simp only [decide_eq_true_eq]
        intro hkt
        exact hx t ht (hk.trans hkt.symm)
      simp [List.filter_cons, hk, hnil]
    · simpa [List.filter_cons, hk] using ih hxs

theorem length_enginePut_present (cfg : StoreConfig) (s : DB) (r : Rec)
    (h : s.any (fun t => decide (keyOf cfg t = keyOf cfg r)) = true) :
    (enginePut cfg s r).length = s.length := by
  simp [enginePut, h]

theorem length_enginePut_absent (cfg : StoreConfig) (s : DB) (r : Rec)
    (h : s.any (fun t => decide (keyOf cfg t = keyOf cfg r)) = false) :
    (enginePut cfg s r).length = s.length + 1 := by
  simp [enginePut, h]

/-- C1: for a valid record, `put(r)` then `get(r[keyField])` returns `r`;
a second identical `put` leaves the `listAll` length unchanged; `put`
preserves the one-record-per-key invariant, so at most one record per
key value exists afterwards; and `put` inserts (length grows by one)
exactly when the key is absent and replaces (length unchanged) when it
is present. -/
theorem c1_put_upsert_semantics (cfg : StoreConfig) (s : DB) (r : Rec)
    (_hkey : isKeyValue (keyOf cfg r) = true)
    (huniq : uniqueKeysB cfg s = true) :
    get cfg (put cfg s r).state (keyOf cfg r) = some r
    ∧ (put cfg (put cfg s r).state r).state.length = (put cfg s r).state.length
    ∧ uniqueKeysB cfg (put cfg s r).state = true
    ∧ (∀ k, (((put cfg s r).state.filter
        (fun t => decide (keyOf cfg t = k))).length ≤ 1))
    ∧ (s.any (fun t => decide (keyOf cfg t = keyOf cfg r)) = false →
        (put cfg s r).state.length = s.length + 1)
    ∧ (s.any (fun t => decide (keyOf cfg t = keyOf cfg r)) = true →
        (put cfg s r).state.length = s.length) := by
  have hpw := (uniqueKeysB_iff cfg s).mp huniq
  have hpw2 := pairwise_enginePut cfg s r hpw
  refine ⟨engineGet_enginePut_self cfg s r, ?_, ?_, ?_, ?_, ?_⟩
  · exact length_enginePut_present cfg _ r (any_enginePut_self cfg s r)
  · exact (uniqueKeysB_iff cfg _).mpr hpw2
  · exact fun k => count_le_one_of_pairwise cfg k _ hpw2
  · exact length_enginePut_absent cfg s r
  · exact length_enginePut_present cfg s r

/-- A generic sample configuration used by concrete instances (key field
`id`, text search over title, tags and code). -/
def sampleCfg : StoreConfig :=
  ⟨"db".data, 1, "st".data, "id", [], ["title", "tags", "code"]⟩

/-- First record of the search example of the spec. -/
def sampleFoo : Rec :=
  [("id", .prim (.str "a".data)), ("title", .prim (.str "Foo".data)),
   ("tags", .arr [.str "bar".data]), ("code", .prim (.str "x".data))]

/-- Second record of the search example of the spec. -/
def sampleBaz : Rec :=
  [("id", .prim (.str "b".data)), ("title", .prim (.str "Baz".data)),
   ("tags", .arr []), ("code", .prim (.str "foobar".data))]

theorem c1_witness :
    isKeyValue (keyOf sampleCfg sampleFoo) = true
    ∧ uniqueKeysB sampleCfg [sampleBaz] = true
    ∧ (get sampleCfg (put sampleCfg [sampleBaz] sampleFoo).state
          (keyOf sampleCfg sampleFoo) = some sampleFoo
      ∧ (put sampleCfg (put sampleCfg [sampleBaz] sampleFoo).state
          sampleFoo).state.length
          = (put sampleCfg [sampleBaz] sampleFoo).state.length
      ∧ uniqueKeysB sampleCfg (put sampleCfg [sampleBaz] sampleFoo).state = true
      ∧ (∀ k, (((put sampleCfg [sampleBaz] sampleFoo).state.filter
          (fun t => decide (keyOf sampleCfg t = k))).length ≤ 1))
      ∧ ([sampleBaz].any
          (fun t => decide (keyOf sampleCfg t = keyOf sampleCfg sampleFoo)) = false →
          (put sampleCfg [sampleBaz] sampleFoo).state.length = 2)
      ∧ ([sampleBaz].any
          (fun t => decide (keyOf sampleCfg t = keyOf sampleCfg sampleFoo)) = true →
          (put sampleCfg [sampleBaz] sampleFoo).state.length = 1)) :=
  ⟨by decide, by decide,
   c1_put_upsert_semantics sampleCfg [sampleBaz] sampleFoo (by decide) (by decide)⟩

/-- The string a field value contributes to the text search: strings as
they are, nullish values as the empty string, other primitives by JS
string coercion (see C10). -/
def jsFieldString : Prim → List Char
  | .str s => s
  | .null => []
  | .undefined => []
  | p => jsStringOfPrim p

theorem toLower_eq_chLower_jsFieldString (p : Prim) :
    toLower p = chLower (jsFieldString p) := by
  cases p <;> rfl

/-- Case-insensitive substring containment, the matching notion of the
spec: the lowered haystack contains the lowered needle. -/
def CIContains (hay sub : List Char) : Prop :=
  ∃ pre post, chLower hay = pre ++ chLower sub ++ post

/-- The spec notion of one field matching a query: an array field
matches when some element contains the query, any other field matches
when its string contains it case-insensitively. -/
def FieldContains (v : Value) (q : List Char) : Prop :=
  match v with
  | .arr xs => ∃ x ∈ xs, CIContains (jsFieldString x) q
  | .prim p => CIContains (jsFieldString p) q

/-- The spec notion of a record matching a query: some configured
text-search field contains it. -/
def SpecMatch (cfg : StoreConfig) (r : Rec) (q : List Char) : Prop :=
  ∃ f ∈ cfg.textSearchFields, FieldContains (getField r f) q

theorem fieldMatch_iff (v : Value) (qt : List Char) :
    fieldMatch v (chLower qt) = true ↔ FieldContains v qt := by
  cases v with
  | prim p =>
    simp only [fieldMatch, FieldContains, toLower_eq_chLower_jsFieldString,
      includesCh_iff, CIContains]
  | arr xs =>
    simp only [fieldMatch, FieldContains, List.any_eq_true,
      toLower_eq_chLower_jsFieldString, includesCh_iff, CIContains]

/-- C2: `search` with an empty or whitespace-only query returns exactly
`listAll()` with no order argument; with any other query it returns
exactly the records some configured text-search field of which
case-insensitively contains the trimmed query as a substring, an
array-valued field matching through any of its elements. -/
theorem c2_search_characterization (cfg : StoreConfig) (s : DB) (q : List Char) :
    (chTrim q = [] → search cfg s q = listAll cfg s none .desc)
    ∧ (chTrim q ≠ [] → ∀ r, r ∈ search cfg s q
        ↔ r ∈ s ∧ SpecMatch cfg r (chTrim q)) := by
  constructor
  · intro he
    simp [search, he]
  · intro hne r
    have hne2 : (chTrim q).isEmpty = false := by
      simpa [List.isEmpty_iff] using hne
    simp only [search, hne2, Bool.false_eq_true, if_false, List.mem_filter,
      List.any_eq_true, SpecMatch]
    constructor
    · rintro ⟨hr, f, hf, hm⟩
      exact ⟨hr, f, hf, (fieldMatch_iff _ _).mp hm⟩
    · rintro ⟨hr, f, hf, hm⟩
      exact ⟨hr, f, hf, (fieldMatch_iff _ _).mpr hm⟩

theorem c2_witness :
    (chTrim "foo".data ≠ []
      ∧ (sampleBaz ∈ search sampleCfg [sampleFoo, sampleBaz] "foo".data
          ↔ sampleBaz ∈ [sampleFoo, sampleBaz]
            ∧ SpecMatch sampleCfg sampleBaz (chTrim "foo".data)))
    ∧ (chTrim "  ".data = []
      ∧ search sampleCfg [sampleFoo, sampleBaz] "  ".data
          = listAll sampleCfg [sampleFoo, sampleBaz] none .desc) :=
  ⟨⟨by decide,
    (c2_search_characterization sampleCfg [sampleFoo, sampleBaz] "foo".data).2
      (by decide) sampleBaz⟩,
   ⟨by decide,
    (c2_search_characterization sampleCfg [sampleFoo, sampleBaz] "  ".data).1
      (by decide)⟩⟩

theorem txRun_none_eq_foldl (cfg : StoreConfig) :
    ∀ (rows : List Rec) (buf : DB),
      txRun cfg buf rows none = some (rows.foldl (enginePut cfg) buf) := by
  intro rows
  induction rows with
  | nil => intro buf; rfl
  | cons r rs ih => intro buf; simpa [txRun] using ih (enginePut cfg buf r)

theorem txRun_fail_eq_none (cfg : StoreConfig) :
    ∀ (rows : List Rec) (buf : DB) (i : Nat),
      txRun cfg buf rows (some i) = none := by
  intro rows
  induction rows with
  | nil => intro buf i; rfl
  | cons r rs ih =>
    intro buf i
    cases i with
    | zero => rfl
    | succ j => simpa [txRun] using ih (enginePut cfg buf r) j

theorem putEach_foldl (cfg : StoreConfig) :
    ∀ (rows : List Rec) (s : DB) (n : Nat),
      rows.foldl (fun acc r => OpResult.mk (enginePut cfg acc.state r)
          (acc.pings + 1)) ⟨s, n⟩
        = ⟨rows.foldl (enginePut cfg) s, n + rows.length⟩ := by
  intro rows
  induction rows with
  | nil => intro s n; rfl
  | cons r rs ih =>
    intro s n
    simp only [List.foldl_cons, List.length_cons, ih (enginePut cfg s r) (n + 1)]
    congr 1
    omega

/-- C4: `upsertMany` is atomic and batches its notification. An engine
failure at any suspension point (any put of the batch, or the final
commit) leaves the store contents unchanged and emits no broadcast; a
successful batch applies every record as an upsert in order and emits
exactly one broadcast. Applying the same rows through individual `put`
calls reaches the same state but emits one broadcast per record. -/
theorem c4_upsertMany_atomic_single_ping (cfg : StoreConfig) (s : DB)
    (rows : List Rec) :
    (∀ i, upsertMany cfg s rows (some i) = ⟨s, 0⟩)
    ∧ upsertMany cfg s rows none = ⟨rows.foldl (enginePut cfg) s, 1⟩
    ∧ (putEach cfg s rows).pings = rows.length
    ∧ (putEach cfg s rows).state = (upsertMany cfg s rows none).state := by
  have hall : upsertMany cfg s rows none = ⟨rows.foldl (enginePut cfg) s, 1⟩ := by
    simp [upsertMany, txRun_none_eq_foldl cfg rows s]
  refine ⟨?_, hall, ?_, ?_⟩
  · intro i
    simp [upsertMany, txRun_fail_eq_none cfg rows s i]
  · simp [putEach, putEach_foldl cfg rows s 0]
  · simp [putEach, putEach_foldl cfg rows s 0, hall]

theorem mem_enginePut_of_ne (cfg : StoreConfig) (s : DB) (row r : Rec)
    (hr : r ∈ s) (hne : keyOf cfg row ≠ keyOf cfg r) :
    r ∈ enginePut cfg s row := by
  unfold enginePut
  by_cases hany : s.any (fun t => decide (keyOf cfg t = keyOf cfg row)) = true
  · simp only [hany, if_true]
    refine List.mem_map.mpr ⟨r, hr, ?_⟩
    rw [if_neg]
    intro h
    exact hne (h.symm)
  · have h2 := eq_false_of_ne_true hany
    simp only [h2, Bool.false_eq_true, if_false]
    exact List.mem_append_left _ hr

theorem mem_foldl_enginePut (cfg : StoreConfig) :
    ∀ (rows : List Rec) (s : DB) (r : Rec), r ∈ s →
      (∀ row ∈ rows, keyOf cfg row ≠ keyOf cfg r) →
      r ∈ rows.foldl (enginePut cfg) s := by
  intro rows
  induction rows with
  | nil => intro s r hr _; exact hr
  | cons row rs ih =>
    intro s r hr hdisj
    simp only [List.foldl_cons]
    exact ih (enginePut cfg s row) r
      (mem_enginePut_of_ne cfg s row r hr (hdisj row (List.mem_cons_self row rs)))
      (fun t ht => hdisj t (List.mem_cons_of_mem row ht))

/-- C5: `importJson` fails with the descriptive error `Invalid import
payload` whenever the `items` property of the parsed payload is not an
array, and in that case the store contents are untouched and no
broadcast is emitted; when `items` is an array, the import succeeds as
one `upsertMany` batch over the decoded items, and every pre-existing
record whose key is hit by no imported item survives — a merge by key,
not a destructive replacement. -/
theorem c5_importJson_validation (cfg : StoreConfig) (s : DB) (j : Json) :
    ((∀ items, jsonGet j "items" ≠ some (.arr items)) →
      importJson cfg s j = ⟨s, 0, some "Invalid import payload".data⟩)
    ∧ (∀ items, jsonGet j "items" = some (.arr items) →
      (importJson cfg s j).error = none
      ∧ (importJson cfg s j).state = (items.map decodeRec).foldl (enginePut cfg) s
      ∧ ∀ r ∈ s, (∀ it ∈ items.map decodeRec, keyOf cfg it ≠ keyOf cfg r) →
          r ∈ (importJson cfg s j).state) := by
  constructor
  · intro hnone
    unfold importJson
    cases hj : jsonGet j "items" with
    | none => rfl
    | some jv =>
      cases jv with
      | arr items => exact absurd hj (hnone items)
      | null => rfl
      | bool b => rfl
      | num n => rfl
      | str s2 => rfl
      | obj fs => rfl
  · intro items hj
    have hstate : importJson cfg s j
        = ⟨(items.map decodeRec).foldl (enginePut cfg) s, 1, none⟩ := by
      unfold importJson
      rw [hj]
      simp [upsertMany, txRun_none_eq_foldl cfg (items.map decodeRec) s]
    refine ⟨by rw [hstate], by rw [hstate], ?_⟩
    intro r hr hdisj
    rw [hstate]
    exact mem_foldl_enginePut cfg (items.map decodeRec) s r hr hdisj

/-- A syntactically valid export envelope around one sample record. -/
def sampleEnvelope : Json :=
  .obj [("v", .num 1), ("exportedAt", .num 7),
        ("items", .arr [encodeRec sampleFoo])]

theorem c5_witness :
    ((∀ items, jsonGet (.num 3) "items" ≠ some (.arr items)) →
      importJson sampleCfg [sampleBaz] (.num 3)
        = ⟨[sampleBaz], 0, some "Invalid import payload".data⟩)
    ∧ ((∀ items, jsonGet (.num 3) "items" ≠ some (.arr items))
      ∧ jsonGet sampleEnvelope "items" = some (.arr [encodeRec sampleFoo])
      ∧ ((importJson sampleCfg [sampleBaz] sampleEnvelope).error = none
        ∧ (importJson sampleCfg [sampleBaz] sampleEnvelope).state
            = ([encodeRec sampleFoo].map decodeRec).foldl
                (enginePut sampleCfg) [sampleBaz]
        ∧ ∀ r ∈ [sampleBaz],
            (∀ it ∈ [encodeRec sampleFoo].map decodeRec,
              keyOf sampleCfg it ≠ keyOf sampleCfg r) →
            r ∈ (importJson sampleCfg [sampleBaz] sampleEnvelope).state)) := by
  refine ⟨(c5_importJson_validation sampleCfg [sampleBaz] (.num 3)).1, ?_, ?_, ?_⟩
  · intro items h
    cases h
  · rfl
  · exact (c5_importJson_validation sampleCfg [sampleBaz] sampleEnvelope).2
      [encodeRec sampleFoo] rfl

/-- A field value that survives JSON serialization exactly: not
`undefined`, and holding no `undefined` array element. -/
def noUndefV : Value → Bool
  | .prim .undefined => false
  | .prim _ => true
  | .arr xs => xs.all (fun p => decide (p ≠ Prim.undefined))

/-- A record all of whose field values survive JSON serialization. -/
def noUndefRec (r : Rec) : Bool := r.all (fun fv => noUndefV fv.2)

theorem decodePrimJ_jsonOfPrim (p : Prim) (h : p ≠ .undefined) :
    decodePrimJ (jsonOfPrim p) = p := by
  cases p with
  | undefined => exact absurd rfl h
  | str s => rfl
  | num n => rfl
  | bool b => rfl
  | null => rfl

theorem decodeValue_encodeValue (v : Value) (h : noUndefV v = true) :
    ∃ j, encodeValue v = some j ∧ decodeValue j = v := by
  cases v with
  | prim p =>
    cases p with
    | undefined => simp [noUndefV] at h
    | str s => exact ⟨.str s, rfl, rfl⟩
    | num n => exact ⟨.num n, rfl, rfl⟩
    | bool b => exact ⟨.bool b, rfl, rfl⟩
    | null => exact ⟨.null, rfl, rfl⟩
  | arr xs =>
    refine ⟨.arr (xs.map jsonOfPrim), rfl, ?_⟩
    simp only [decodeValue, List.map_map]
    have hxs : ∀ p ∈ xs, p ≠ Prim.undefined := by
      intro p hp
      have := List.all_eq_true.mp h p hp
      simpa using this
    have : xs.map (decodePrimJ ∘ jsonOfPrim) = xs.map id := by
      refine List.map_congr_left ?_
      intro p hp
      exact decodePrimJ_jsonOfPrim p (hxs p hp)
    rw [this, List.map_id]

theorem decodeRec_encodeRec (r : Rec) (h : noUndefRec r = true) :
    decodeRec (encodeRec r) = r := by
  induction r with
  | nil => rfl
  | cons fv rest ih =>
    have hv : noUndefV fv.2 = true := by
      have := List.all_eq_true.mp h fv (List.mem_cons_self fv rest)
      exact this
    have hrest : noUndefRec rest = true := by
      refine List.all_eq_true.mpr ?_
      intro x hx
      exact List.all_eq_true.mp h x (List.mem_cons_of_mem fv hx)
    rcases decodeValue_encodeValue fv.2 hv with ⟨j, hj1, hj2⟩
    have hg : (encodeValue fv.2).map (fun j2 => (fv.1, j2)) = some (fv.1, j) := by
      rw [hj1]
      rfl
    simp only [encodeRec, decodeRec] at ih ⊢
    simp only [List.filterMap_cons, hg, List.map_cons, ih hrest, hj2]

theorem foldl_enginePut_fresh (cfg : StoreConfig) :
    ∀ (rows : List Rec) (acc : DB),
      rows.Pairwise (fun a b => keyOf cfg a ≠ keyOf cfg b) →
      (∀ row ∈ rows, ∀ a ∈ acc, keyOf cfg a ≠ keyOf cfg row) →
      rows.foldl (enginePut cfg) acc = acc ++ rows := by
  intro rows
  induction rows with
  | nil =>
    intro acc _ _
    simp
  | cons r rs ih =>
    intro acc hpw hdisj
    rcases List.pairwise_cons.mp hpw with ⟨hr, hrs⟩
    have hany : acc.any (fun t => decide (keyOf cfg t = keyOf cfg r)) = false := by
      refine List.any_eq_false.mpr ?_
      intro t ht
      simp only [decide_eq_true_eq]
      exact hdisj r (List.mem_cons_self r rs) t ht
    have hput : enginePut cfg acc r = acc ++ [r] := by
      simp [enginePut, hany]
    simp only [List.foldl_cons, hput]
    rw [ih (acc ++ [r]) hrs ?_]
    · simp
    · intro row hrow a ha
      rcases List.mem_append.mp ha with h1 | h1
      · exact hdisj row (List.mem_cons_of_mem r hrow) a h1
      · rcases List.mem_singleton.mp h1 with rfl
        exact hr row hrow

/-- A record with an `undefined` field value, the values the source
record type admits but JSON serialization drops. -/
def undefRec : Rec := [("id", .prim (.str "1".data)), ("x", .prim .undefined)]

/-- C3 counterexample: a record holding an `undefined` field value is a
legal store state (distinct keys), yet the export-then-import round
trip does not restore it — `JSON.stringify` drops the field, so the
restored record differs from the exported one. -/
theorem c3_roundtrip_counterexample :
    undefRec ∈ ([undefRec] : DB)
    ∧ uniqueKeysB sampleCfg [undefRec] = true
    ∧ undefRec ∉ (importJson sampleCfg []
        (exportJson sampleCfg [undefRec] 7)).state
    ∧ (importJson sampleCfg [] (exportJson sampleCfg [undefRec] 7)).state
        = [[("id", .prim (.str "1".data))]] := by
  decide

/-- C3 (amended): for a collection state with distinct keys none of
whose records store `undefined` in a field or array element, importing
the export of that state into a fresh empty collection with the same
configuration restores exactly the original records. -/
theorem c3_export_import_roundtrip (cfg : StoreConfig) (s : DB) (now : Int)
    (huniq : uniqueKeysB cfg s = true) (hnu : s.all noUndefRec = true) :
    (importJson cfg [] (exportJson cfg s now)).state = s
    ∧ (importJson cfg [] (exportJson cfg s now)).error = none := by
  have hitems : jsonGet (exportJson cfg s now) "items"
      = some (.arr (s.map encodeRec)) := rfl
  have hstate : importJson cfg [] (exportJson cfg s now)
      = ⟨((s.map encodeRec).map decodeRec).foldl (enginePut cfg) [], 1, none⟩ := by
    unfold importJson
    rw [hitems]
    simp [upsertMany, txRun_none_eq_foldl]
  have hmap : (s.map encodeRec).map decodeRec = s := by
    rw [List.map_map]
    have : s.map (decodeRec ∘ encodeRec) = s.map id := by
      refine List.map_congr_left ?_
      intro r hr
      exact decodeRec_encodeRec r (List.all_eq_true.mp hnu r hr)
    rw [this, List.map_id]
  have hfold : ((s.map encodeRec).map decodeRec).foldl (enginePut cfg) [] = s := by
    rw [hmap]
    rw [foldl_enginePut_fresh cfg s [] ((uniqueKeysB_iff cfg s).mp huniq)
      (fun row _ a ha => absurd ha (List.not_mem_nil a))]
    simp
  rw [hstate, hfold]
  exact ⟨rfl, rfl⟩

theorem c3_witness :
    uniqueKeysB sampleCfg [sampleFoo, sampleBaz] = true
    ∧ ([sampleFoo, sampleBaz] : DB).all noUndefRec = true
    ∧ ((importJson sampleCfg []
          (exportJson sampleCfg [sampleFoo, sampleBaz] 7)).state
        = [sampleFoo, sampleBaz]
      ∧ (importJson sampleCfg []
          (exportJson sampleCfg [sampleFoo, sampleBaz] 7)).error = none) :=
  ⟨by decide, by decide,
   c3_export_import_roundtrip sampleCfg [sampleFoo, sampleBaz] 7
     (by decide) (by decide)⟩

/-- A valid snippet record, older timestamp, title containing `x`. -/
def snip1 : Rec :=
  [("id", .prim (.str "1".data)), ("title", .prim (.str "x1".data)),
   ("code", .prim (.str "".data)), ("tags", .arr []),
   ("createdAt", .prim (.num 1)), ("updatedAt", .prim (.num 100)),
   ("language", .prim (.str "ts".data))]

/-- A valid snippet record, newer timestamp, title containing `x`. -/
def snip2 : Rec :=
  [("id", .prim (.str "2".data)), ("title", .prim (.str "x2".data)),
   ("code", .prim (.str "".data)), ("tags", .arr []),
   ("createdAt", .prim (.num 1)), ("updatedAt", .prim (.num 200)),
   ("language", .prim (.str "ts".data))]

/-- C6 counterexample: handing `importJson` a bare JSON array of one
valid record does not succeed — a bare array has no `items` property,
so the import is rejected with `Invalid import payload` and nothing is
applied. -/
theorem c6_bare_array_counterexample :
    importJson snippetConfig [] (.arr [encodeRec snip1])
      = ⟨[], 0, some "Invalid import payload".data⟩
    ∧ parseAllSnippets [encodeRec snip1] = some [snip1] := by
  exact ⟨rfl, by decide⟩

/-- C6 (amended): the generic `importJson` accepts only the envelope
whose `items` property is an array and rejects a bare JSON array with
`Invalid import payload`, leaving the store untouched; the bare-array
acceptance lives in the settings-page import handler, whose union
schema validates a bare array of snippets and applies it as one
`upsertMany` batch. -/
theorem c6_import_variants (s : DB) (xs : List Json) (rs : List Rec)
    (h : parseAllSnippets xs = some rs) :
    (importJson snippetConfig s (.arr xs)).error
        = some "Invalid import payload".data
    ∧ (importJson snippetConfig s (.arr xs)).state = s
    ∧ settingsImport s (.arr xs) = some (upsertMany snippetConfig s rs none) := by
  refine ⟨rfl, rfl, ?_⟩
  simp [settingsImport, settingsImportItems, h]

theorem c6_witness :
    parseAllSnippets [encodeRec snip2] = some [snip2]
    ∧ ((importJson snippetConfig [snip1] (.arr [encodeRec snip2])).error
          = some "Invalid import payload".data
      ∧ (importJson snippetConfig [snip1] (.arr [encodeRec snip2])).state = [snip1]
      ∧ settingsImport [snip1] (.arr [encodeRec snip2])
          = some (upsertMany snippetConfig [snip1] [snip2] none)) :=
  ⟨by decide,
   c6_import_variants [snip1] [encodeRec snip2] [snip2] (by decide)⟩

theorem jsInsert_perm (le : α → α → Bool) (x : α) :
    ∀ l : List α, (jsInsert le x l).Perm (x :: l) := by
  intro l
  induction l with
  | nil => exact List.Perm.refl _
  | cons y ys ih =>
    by_cases h : le x y = true
    · simp [jsInsert, h]
    · simp only [jsInsert, h, Bool.false_eq_true, if_false]
      exact (ih.cons y).trans (List.Perm.swap x y ys)

theorem jsSort_perm (le : α → α → Bool) :
    ∀ l : List α, (jsSort le l).Perm l := by
  intro l
  induction l with
  | nil => exact List.Perm.refl _
  | cons x xs ih =>
    exact (jsInsert_perm le x (jsSort le xs)).trans (ih.cons x)

theorem mem_jsInsert (le : α → α → Bool) (x a : α) (l : List α) :
    a ∈ jsInsert le x l ↔ a = x ∨ a ∈ l := by
  rw [(jsInsert_perm le x l).mem_iff]
  simp

theorem jsInsert_pairwise (le : α → α → Bool) (P : α → Prop)
    (htot : ∀ a b, P a → P b → le a b = true ∨ le b a = true)
    (htr : ∀ a b c, P a → P b → P c →
      le a b = true → le b c = true → le a c = true) :
    ∀ (l : List α) (x : α), P x → (∀ a ∈ l, P a) →
      l.Pairwise (fun a b => le a b = true) →
      (jsInsert le x l).Pairwise (fun a b => le a b = true) := by
  intro l
  induction l with
  | nil =>
    intro x _ _ _
    simp [jsInsert]
  | cons y ys ih =>
    intro x hPx hPl hpw
    rcases List.pairwise_cons.mp hpw with ⟨hy, hys⟩
    have hPy : P y := hPl y (List.mem_cons_self y ys)
    have hPys : ∀ a ∈ ys, P a := fun a ha => hPl a (List.mem_cons_of_mem y ha)
    by_cases h : le x y = true
    · simp only [jsInsert, h, if_true]
      refine List.pairwise_cons.mpr ⟨?_, hpw⟩
      intro b hb
      rcases List.mem_cons.mp hb with rfl | hb2
      · exact h
      · exact htr x y b hPx hPy (hPys b hb2) h (hy b hb2)
    · have hyx : le y x = true := (htot x y hPx hPy).resolve_left h
      simp only [jsInsert, h, Bool.false_eq_true, if_false]
      refine List.pairwise_cons.mpr ⟨?_, ih x hPx hPys hys⟩
      intro b hb
      rcases (mem_jsInsert le x b ys).mp hb with rfl | hb2
      · exact hyx
      · exact hy b hb2

theorem jsSort_pairwise (le : α → α → Bool) (P : α → Prop)
    (htot : ∀ a b, P a → P b → le a b = true ∨ le b a = true)
    (htr : ∀ a b c, P a → P b → P c →
      le a b = true → le b c = true → le a c = true) :
    ∀ l : List α, (∀ a ∈ l, P a) →
      (jsSort le l).Pairwise (fun a b => le a b = true) := by
  intro l
  induction l with
  | nil =>
    intro _
    simp [jsSort]
  | cons x xs ih =>
    intro hPl
    have hPx : P x := hPl x (List.mem_cons_self x xs)
    have hPxs : ∀ a ∈ xs, P a := fun a ha => hPl a (List.mem_cons_of_mem x ha)
    have hPsrt : ∀ a ∈ jsSort le xs, P a := by
      intro a ha
      exact hPxs a ((jsSort_perm le xs).mem_iff.mp ha)
    exact jsInsert_pairwise le P htot htr (jsSort le xs) x hPx hPsrt (ih hPxs)

theorem isNumVal_iff (v : Value) : isNumVal v = true ↔ ∃ n, v = .prim (.num n) := by
  cases v with
  | prim p =>
    cases p with
    | num n => simp [isNumVal]
    | str s => simp [isNumVal]
    | bool b => simp [isNumVal]
    | null => simp [isNumVal]
    | undefined => simp [isNumVal]
  | arr xs => simp [isNumVal]

theorem cmp_num_nonpos (x y : Int) :
    (cmp (.prim (.num x)) (.prim (.num y)) ≤ 0) ↔ x ≤ y := by
  have h1 : jsLt (.prim (.num x)) (.prim (.num y)) = decide (x < y) := rfl
  have h2 : jsLt (.prim (.num y)) (.prim (.num x)) = decide (y < x) := rfl
  simp only [cmp, h1, h2]
  rcases lt_trichotomy x y with h | h | h
  · simp [h, le_of_lt h]
  · simp [h]
  · simp [h, not_lt.mpr (le_of_lt h), not_le.mpr h]

theorem sortLe_total_nums (f : String) (dir : OrderDir) (a b : Rec)
    (ha : isNumVal (getField a f) = true) (hb : isNumVal (getField b f) = true) :
    sortLe f dir a b = true ∨ sortLe f dir b a = true := by
  rcases (isNumVal_iff _).mp ha with ⟨xa, hxa⟩
  rcases (isNumVal_iff _).mp hb with ⟨xb, hxb⟩
  rcases le_total xa xb with h | h
  · cases dir with
    | asc =>
      exact Or.inl (by simp [sortLe, hxa, hxb, (cmp_num_nonpos xa xb).mpr h])
    | desc =>
      exact Or.inr (by simp [sortLe, hxa, hxb, (cmp_num_nonpos xa xb).mpr h])
  · cases dir with
    | asc =>
      exact Or.inr (by simp [sortLe, hxa, hxb, (cmp_num_nonpos xb xa).mpr h])
    | desc =>
      exact Or.inl (by simp [sortLe, hxa, hxb, (cmp_num_nonpos xb xa).mpr h])

theorem sortLe_trans_nums (f : String) (dir : OrderDir) (a b c : Rec)
    (ha : isNumVal (getField a f) = true) (hb : isNumVal (getField b f) = true)
    (hc : isNumVal (getField c f) = true)
    (hab : sortLe f dir a b = true) (hbc : sortLe f dir b c = true) :
    sortLe f dir a c = true := by
  rcases (isNumVal_iff _).mp ha with ⟨xa, hxa⟩
  rcases (isNumVal_iff _).mp hb with ⟨xb, hxb⟩
  rcases (isNumVal_iff _).mp hc with ⟨xc, hxc⟩
  cases dir with
  | asc =>
    simp only [sortLe, hxa, hxb, hxc, decide_eq_true_eq] at hab hbc ⊢
    exact (cmp_num_nonpos xa xc).mpr
      (le_trans ((cmp_num_nonpos xa xb).mp hab) ((cmp_num_nonpos xb xc).mp hbc))
  | desc =>
    simp only [sortLe, hxa, hxb, hxc, decide_eq_true_eq] at hab hbc ⊢
    exact (cmp_num_nonpos xc xa).mpr
      (le_trans ((cmp_num_nonpos xc xb).mp hbc) ((cmp_num_nonpos xb xa).mp hab))

/-- The configuration of the concrete `listAll` scenario of the spec:
key field `id`, one index over `updatedAt`. -/
def scenarioCfg : StoreConfig :=
  ⟨"db".data, 1, "st".data, "id",
   [⟨"by_updatedAt", ["updatedAt"], false, false⟩], []⟩

/-- First scenario record, `id 1`, `updatedAt 100`. -/
def recA : Rec :=
  [("id", .prim (.str "1".data)), ("updatedAt", .prim (.num 100))]

/-- Second scenario record, `id 2`, `updatedAt 200`. -/
def recB : Rec :=
  [("id", .prim (.str "2".data)), ("updatedAt", .prim (.num 200))]

/-- The scenario state: two puts into an empty collection. -/
def scenarioState : DB :=
  (put scenarioCfg (put scenarioCfg [] recA).state recB).state

/-- C7: `listAll` with an order field returns a permutation of the
stored records; over numeric field values the output is sorted by the
three-way comparator, ascending for `asc` and descending for `desc`;
and in the concrete scenario two puts followed by
`listAll("updatedAt", "desc")` return the records in id order 2, 1
(ascending order reverses them). -/
theorem c7_listAll_sorting (cfg : StoreConfig) (s : DB) (f : String)
    (dir : OrderDir) :
    (listAll cfg s (some f) dir).Perm s
    ∧ ((∀ r ∈ s, isNumVal (getField r f) = true) →
        (listAll cfg s (some f) dir).Pairwise
          (fun a b => sortLe f dir a b = true))
    ∧ listAll scenarioCfg scenarioState (some "updatedAt") OrderDir.desc
        = [recB, recA]
    ∧ (listAll scenarioCfg scenarioState (some "updatedAt")
        OrderDir.desc).map (fun r => getField r "id")
        = [.prim (.str "2".data), .prim (.str "1".data)]
    ∧ listAll scenarioCfg scenarioState (some "updatedAt") OrderDir.asc
        = [recA, recB] := by
  refine ⟨jsSort_perm _ s, ?_, by decide, by decide, by decide⟩
  intro hnum
  exact jsSort_pairwise (sortLe f dir) (fun r => isNumVal (getField r f) = true)
    (sortLe_total_nums f dir) (sortLe_trans_nums f dir) s hnum

theorem c7_witness :
    (∀ r ∈ scenarioState, isNumVal (getField r "updatedAt") = true)
    ∧ (listAll scenarioCfg scenarioState (some "updatedAt")
        OrderDir.desc).Pairwise
        (fun a b => sortLe "updatedAt" OrderDir.desc a b = true) :=
  ⟨by decide,
   (c7_listAll_sorting scenarioCfg scenarioState "updatedAt"
      OrderDir.desc).2.1 (by decide)⟩

theorem sep_append_inj :
    ∀ (a1 : List Char), ':' ∉ a1 → ∀ (a2 : List Char), ':' ∉ a2 →
      ∀ r1 r2 : List Char, a1 ++ ':' :: r1 = a2 ++ ':' :: r2 →
        a1 = a2 ∧ r1 = r2 := by
  intro a1
  induction a1 with
  | nil =>
    intro _ a2 h2 r1 r2 heq
    cases a2 with
    | nil =>
      simpa using heq
    | cons c2 t2 =>
      rcases List.cons.injEq .. ▸ heq with ⟨hc, -⟩
      exact absurd (hc ▸ List.mem_cons_self c2 t2) h2
  | cons c1 t1 ih =>
    intro h1 a2 h2 r1 r2 heq
    cases a2 with
    | nil =>
      rcases List.cons.injEq .. ▸ heq with ⟨hc, -⟩
      exact absurd (hc ▸ List.mem_cons_self c1 t1) h1
    | cons c2 t2 =>
      rcases List.cons.injEq .. ▸ heq with ⟨hc, htail⟩
      have h1t : ':' ∉ t1 := fun hm => h1 (List.mem_cons_of_mem c1 hm)
      have h2t : ':' ∉ t2 := fun hm => h2 (List.mem_cons_of_mem c2 hm)
      rcases ih h1t t2 h2t r1 r2 htail with ⟨rfl, rfl⟩
      exact ⟨by rw [hc], rfl⟩

theorem makeChannelName_inj (d1 s1 d2 s2 : List Char)
    (h1 : ':' ∉ d1) (h2 : ':' ∉ d2)
    (heq : makeChannelName d1 s1 = makeChannelName d2 s2) :
    d1 = d2 ∧ s1 = s2 := by
  have hsep : "::".data = [':', ':'] := by decide
  have heq2 : d1 ++ ':' :: (':' :: (s1 ++ [':', ':', 'c', 'h', 'a', 'n', 'g', 'e', 's']))
      = d2 ++ ':' :: (':' :: (s2 ++ [':', ':', 'c', 'h', 'a', 'n', 'g', 'e', 's'])) := by
    have h := heq
    simp only [makeChannelName, hsep, List.append_assoc, List.cons_append,
      List.nil_append] at h
    exact h
  rcases sep_append_inj d1 h1 d2 h2 _ _ heq2 with ⟨hd, htail⟩
  rcases List.cons.injEq .. ▸ htail with ⟨-, htail2⟩
  exact ⟨hd, List.append_cancel_right htail2⟩

/-- C8 counterexample: two stores with different (database name,
collection name) pairs can derive the same broadcast channel name when
a database name contains the separator, so they do signal each other. -/
theorem c8_channel_collision :
    makeChannelName "a::b".data "c".data = makeChannelName "a".data "b::c".data
    ∧ ("a::b".data, "c".data) ≠ ("a".data, "b::c".data) := by
  decide

/-- C8 (amended): the channel name is derived deterministically as
dbName, `::`, storeName, `::changes`; the broadcast payload is exactly
the object with the single field `t` holding `changed`, and the
`onChange` handler fires on it; and two stores whose database names are
free of the separator character `:` and whose (database name,
collection name) pairs differ never signal each other — without that
freedom, distinct pairs can collide as the counterexample shows. -/
theorem c8_channel_name_payload :
    (∀ d s : List Char, makeChannelName d s
        = d ++ "::".data ++ s ++ "::changes".data)
    ∧ pingMessage = .obj [("t", .str "changed".data)]
    ∧ handlerFires pingMessage = true
    ∧ ∀ cfg1 cfg2 : StoreConfig, ':' ∉ cfg1.dbName → ':' ∉ cfg2.dbName →
        (cfg1.dbName, cfg1.storeName) ≠ (cfg2.dbName, cfg2.storeName) →
        ¬ signals cfg1 cfg2 := by
  refine ⟨fun d s => rfl, rfl, by decide, ?_⟩
  intro cfg1 cfg2 h1 h2 hne hsig
  rcases makeChannelName_inj cfg1.dbName cfg1.storeName cfg2.dbName
    cfg2.storeName h1 h2 hsig with ⟨hd, hs⟩
  exact hne (by rw [hd, hs])

theorem c8_witness :
    (':' ∉ "snippets-db".data)
    ∧ (':' ∉ "db".data)
    ∧ (("snippets-db".data, "snippets".data) ≠ ("db".data, "st".data))
    ∧ ¬ signals snippetConfig sampleCfg :=
  ⟨by decide, by decide, by decide,
   c8_channel_name_payload.2.2.2 snippetConfig sampleCfg
     (by decide) (by decide) (by decide)⟩

theorem isStrV_iff (v : Value) : isStrV v = true ↔ ∃ s, v = .prim (.str s) := by
  cases v with
  | prim p =>
    cases p with
    | str s => simp [isStrV]
    | num n => simp [isStrV]
    | bool b => simp [isStrV]
    | null => simp [isStrV]
    | undefined => simp [isStrV]
  | arr xs => simp [isStrV]

theorem isStrArrV_iff (v : Value) :
    isStrArrV v = true ↔ ∃ xs, v = .arr xs ∧ ∀ x ∈ xs, ∃ t, x = Prim.str t := by
  cases v with
  | prim p =>
    cases p with
    | str s => simp [isStrArrV]
    | num n => simp [isStrArrV]
    | bool b => simp [isStrArrV]
    | null => simp [isStrArrV]
    | undefined => simp [isStrArrV]
  | arr xs =>
    simp only [isStrArrV, List.all_eq_true, Value.arr.injEq, exists_eq_left']
    constructor
    · intro h x hx
      have := h x hx
      cases x with
      | str t => exact ⟨t, rfl⟩
      | num n => simp at this
      | bool b => simp at this
      | null => simp at this
      | undefined => simp at this
    · intro h x hx
      rcases h x hx with ⟨t, rfl⟩
      rfl

theorem trySomeTags_eq (lower : List Char) :
    ∀ xs : List Prim, (∀ x ∈ xs, ∃ t, x = Prim.str t) →
      trySomeTags lower xs
        = some (xs.any (fun x => includesCh (toLower x) lower)) := by
  intro xs
  induction xs with
  | nil =>
    intro _
    rfl
  | cons p ps ih =>
    intro h
    rcases h p (List.mem_cons_self p ps) with ⟨t, rfl⟩
    have hps := fun x hx => h x (List.mem_cons_of_mem _ hx)
    by_cases hc : includesCh (chLower t) lower = true
    · simp [trySomeTags, tryLowerPrim, hc, List.any_cons, toLower]
    · have hc2 := eq_false_of_ne_true hc
      simp [trySomeTags, tryLowerPrim, hc2, List.any_cons, toLower, ih hps]

theorem snipMatch_eq (r : Rec) (h : isSnippet r = true) (lower : List Char) :
    snipMatch r lower
      = some (snippetConfig.textSearchFields.any
          (fun f => fieldMatch (getField r f) lower)) := by
  simp only [isSnippet, Bool.and_eq_true] at h
  rcases h with ⟨⟨⟨⟨⟨-, hT⟩, hC⟩, hTags⟩, -⟩, -⟩
  rcases (isStrV_iff _).mp hT with ⟨ts, hts⟩
  rcases (isStrV_iff _).mp hC with ⟨cs, hcs⟩
  rcases (isStrArrV_iff _).mp hTags with ⟨xs, hxs, hxsall⟩
  have hfields : snippetConfig.textSearchFields = ["title", "tags", "code"] := rfl
  simp only [snipMatch, hts, hcs, hxs, tryFieldTest, tryLowerValue, tryLowerPrim,
    tryTagsTest, trySomeTags_eq lower xs hxsall, hfields, List.any_cons,
    List.any_nil, fieldMatch, toLower]
  congr 1
  simp [Bool.or_assoc]

theorem filterOpt_eq_filter (p : α → Option Bool) (g : α → Bool) :
    ∀ l : List α, (∀ x ∈ l, p x = some (g x)) →
      filterOpt p l = some (l.filter g) := by
  intro l
  induction l with
  | nil =>
    intro _
    rfl
  | cons x xs ih =>
    intro h
    have hx := h x (List.mem_cons_self x xs)
    have hxs := ih (fun a ha => h a (List.mem_cons_of_mem x ha))
    by_cases hg : g x = true
    · simp [filterOpt, hx, hg, List.filter_cons, hxs]
    · have hg2 := eq_false_of_ne_true hg
      simp [filterOpt, hx, hg2, List.filter_cons, hxs]

/-- C9 counterexample: on two valid snippets, both store implementations
trim the query identically (the query `x` needs no trimming at all),
yet the two searches return different results — the hand-written one
reorders matches by `updatedAt` descending while the generic builder
preserves store order. The trim-before-emptiness-check is therefore not
the distinguishing semantic difference; result order is. -/
theorem c9_search_order_difference :
    chTrim "x".data = "x".data
    ∧ search snippetConfig [snip1, snip2] "x".data = [snip1, snip2]
    ∧ searchByTitle [snip1, snip2] "x".data = some [snip2, snip1]
    ∧ ([snip2, snip1] : List Rec) ≠ [snip1, snip2] := by
  decide

/-- C9 (amended): on every collection of valid snippet records and every
query, the hand-written `searchByTitle` succeeds and returns the same
records as the generic builder search instantiated with the snippet
configuration, up to order — both trim the query before the emptiness
check; they differ in result order only. -/
theorem c9_search_set_equivalence (s : DB) (q : List Char)
    (h : ∀ r ∈ s, isSnippet r = true) :
    ∃ out, searchByTitle s q = some out
      ∧ out.Perm (search snippetConfig s q) := by
  by_cases he : (chTrim q).isEmpty = true
  · refine ⟨snipListAll s, ?_, ?_⟩
    · simp [searchByTitle, he]
    · have h1 : search snippetConfig s q = s := by
        simp [search, he, listAll]
      rw [h1]
      exact (List.reverse_perm _).trans (jsSort_perm idxLe s)
  · have he2 := eq_false_of_ne_true he
    have hfilter : filterOpt (fun r => snipMatch r (chLower (chTrim q))) s
        = some (s.filter (fun r => snippetConfig.textSearchFields.any
            (fun f => fieldMatch (getField r f) (chLower (chTrim q))))) := by
      refine filterOpt_eq_filter _ _ s ?_
      intro r hr
      exact snipMatch_eq r (h r hr) (chLower (chTrim q))
    refine ⟨jsSort byUpdatedDescLe
      (s.filter (fun r => snippetConfig.textSearchFields.any
        (fun f => fieldMatch (getField r f) (chLower (chTrim q))))), ?_, ?_⟩
    · simp [searchByTitle, he2, hfilter]
    · have h1 : search snippetConfig s q
          = s.filter (fun r => snippetConfig.textSearchFields.any
              (fun f => fieldMatch (getField r f) (chLower (chTrim q)))) := by
        simp [search, he2]
      rw [h1]
      exact jsSort_perm byUpdatedDescLe _

theorem c9_witness :
    (∀ r ∈ ([snip1, snip2] : DB), isSnippet r = true)
    ∧ ∃ out, searchByTitle [snip1, snip2] "x".data = some out
        ∧ out.Perm (search snippetConfig [snip1, snip2] "x".data) :=
  ⟨by decide, c9_search_set_equivalence [snip1, snip2] "x".data (by decide)⟩

/-- JS evaluation of the source helper `toLower` on one primitive, with
`none` reserved for a thrown exception: the `typeof` guard sends
strings to `toLowerCase` directly and every other value through
`String(v ?? "")` first, so every step acts on a genuine string and no
throwing point exists. -/
def toLowerEval : Prim → Option (List Char)
  | .str s => some (chLower s)
  | p => some (chLower (jsStringOfPrim (nullishEmpty p)))

/-- JS evaluation of the generic array branch
`v.some((x) => toLower(x).includes(lower))`. -/
def someEvalArr (lower : List Char) : List Prim → Option Bool
  | [] => some false
  | p :: ps =>
    match toLowerEval p with
    | none => none
    | some s => if includesCh s lower then some true else someEvalArr lower ps

/-- JS evaluation of the per-field test of the generic `search`. -/
def fieldMatchEval (v : Value) (lower : List Char) : Option Bool :=
  match v with
  | .arr xs => someEvalArr lower xs
  | .prim p => (toLowerEval p).map (fun s => includesCh s lower)

/-- JS evaluation of
`fields.some((f) => ...)` over the configured text-search fields. -/
def anyFieldsEval (r : Rec) (lower : List Char) : List String → Option Bool
  | [] => some false
  | f :: fs =>
    match fieldMatchEval (getField r f) lower with
    | none => none
    | some true => some true
    | some false => anyFieldsEval r lower fs

/-- JS evaluation of the generic `search`, with `none` modelling a
thrown exception anywhere in the scan. -/
def searchEval (cfg : StoreConfig) (s : DB) (q : List Char) :
    Option (List Rec) :=
  if (chTrim q).isEmpty then some (listAll cfg s none .desc)
  else filterOpt
    (fun r => anyFieldsEval r (chLower (chTrim q)) cfg.textSearchFields) s

theorem toLowerEval_eq (p : Prim) : toLowerEval p = some (toLower p) := by
  cases p with
  | str s => rfl
  | num n => rfl
  | bool b => rfl
  | null => rfl
  | undefined => rfl

theorem someEvalArr_eq (lower : List Char) :
    ∀ xs : List Prim, someEvalArr lower xs
      = some (xs.any (fun x => includesCh (toLower x) lower)) := by
  intro xs
  induction xs with
  | nil => rfl
  | cons p ps ih =>
    by_cases hc : includesCh (toLower p) lower = true
    · simp [someEvalArr, toLowerEval_eq, hc, List.any_cons]
    · have hc2 := eq_false_of_ne_true hc
      simp [someEvalArr, toLowerEval_eq, hc2, List.any_cons, ih]

theorem fieldMatchEval_eq (v : Value) (lower : List Char) :
    fieldMatchEval v lower = some (fieldMatch v lower) := by
  cases v with
  | arr xs => simpa [fieldMatchEval, fieldMatch] using someEvalArr_eq lower xs
  | prim p => simp [fieldMatchEval, fieldMatch, toLowerEval_eq]

theorem anyFieldsEval_eq (r : Rec) (lower : List Char) :
    ∀ fields : List String, anyFieldsEval r lower fields
      = some (fields.any (fun f => fieldMatch (getField r f) lower)) := by
  intro fields
  induction fields with
  | nil => rfl
  | cons f fs ih =>
    by_cases hf : fieldMatch (getField r f) lower = true
    · simp [anyFieldsEval, fieldMatchEval_eq, hf, List.any_cons]
    · have hf2 := eq_false_of_ne_true hf
      simp [anyFieldsEval, fieldMatchEval_eq, hf2, List.any_cons, ih]

/-- A record whose `title` field holds a number instead of a string. -/
def badTitleRec : Rec :=
  [("id", .prim (.str "z".data)), ("title", .prim (.num 42)),
   ("code", .prim (.str "x".data)), ("tags", .arr []),
   ("createdAt", .prim (.num 1)), ("updatedAt", .prim (.num 1))]

/-- C10: the generic search never throws — its JS evaluation always
yields the very result of `search`, for every store, query and field
value; a non-string non-array field is matched through its string
coercion lowercased, so `42` is found by the query `42` while `null`
and `undefined` coerce to the empty string and a record whose
text-search fields are all nullish matches no nonempty query. On the
numeric-title record the hand-written `searchByTitle` throws where the
generic search scans on. -/
theorem c10_search_total_coercion (cfg : StoreConfig) (s : DB) (q : List Char)
    (r : Rec) :
    searchEval cfg s q = some (search cfg s q)
    ∧ (toLower .null = [] ∧ toLower .undefined = []
      ∧ (∀ b, toLower (.bool b) = chLower (jsStringOfPrim (.bool b)))
      ∧ (∀ n, toLower (.num n) = chLower (jsStrOfInt n)))
    ∧ (chTrim q ≠ [] →
        (∀ f ∈ cfg.textSearchFields,
          getField r f = .prim .null ∨ getField r f = .prim .undefined) →
        r ∉ search cfg s q)
    ∧ searchByTitle [badTitleRec] "x".data = none
    ∧ search snippetConfig [badTitleRec] "x".data = [badTitleRec]
    ∧ search snippetConfig [badTitleRec] "42".data = [badTitleRec] := by
  refine ⟨?_, ⟨rfl, rfl, fun b => by cases b <;> rfl, fun n => rfl⟩, ?_,
    by decide, by decide, by decide⟩
  · by_cases he : (chTrim q).isEmpty = true
    · simp [searchEval, search, he]
    · have he2 := eq_false_of_ne_true he
      simp only [searchEval, search, he2, Bool.false_eq_true, if_false]
      exact filterOpt_eq_filter _ _ s
        (fun x _ => anyFieldsEval_eq x (chLower (chTrim q)) cfg.textSearchFields)
  · intro hne hnull hmem
    have he2 : (chTrim q).isEmpty = false := by
      simpa [List.isEmpty_iff] using hne
    simp only [search, he2, Bool.false_eq_true, if_false, List.mem_filter,
      List.any_eq_true] at hmem
    rcases hmem with ⟨-, f, hf, hmatch⟩
    have hlow : chLower (chTrim q) ≠ [] := chLower_nonempty hne
    rcases hnull f hf with hv | hv
    · rw [hv] at hmatch
      simp only [fieldMatch, toLower, nullishEmpty, jsStringOfPrim, chLower,
        List.map_nil, includesCh, List.isEmpty_iff] at hmatch
      exact hlow hmatch
    · rw [hv] at hmatch
      simp only [fieldMatch, toLower, nullishEmpty, jsStringOfPrim, chLower,
        List.map_nil, includesCh, List.isEmpty_iff] at hmatch
      exact hlow hmatch

theorem c10_witness :
    (chTrim "zz".data ≠ []
      ∧ (∀ f ∈ sampleCfg.textSearchFields,
          getField [("id", .prim (.str "n".data)), ("title", Value.prim .null)]
            f = .prim .null
          ∨ getField [("id", .prim (.str "n".data)), ("title", Value.prim .null)]
            f = .prim .undefined)
      ∧ [("id", .prim (.str "n".data)), ("title", Value.prim .null)]
          ∉ search sampleCfg
            [[("id", .prim (.str "n".data)), ("title", Value.prim .null)]]
            "zz".data)
    ∧ searchEval sampleCfg [sampleFoo] "foo".data
        = some (search sampleCfg [sampleFoo] "foo".data) :=
  ⟨⟨by decide, by decide,
    (c10_search_total_coercion sampleCfg
        [[("id", .prim (.str "n".data)), ("title", Value.prim .null)]]
        "zz".data
        [("id", .prim (.str "n".data)), ("title", Value.prim .null)]).2.2.1
      (by decide) (by decide)⟩,
   (c10_search_total_coercion sampleCfg [sampleFoo] "foo".data []).1⟩

end Asgard
